import Mathlib

/-!
# numrust — verification of the descriptive statistics and weighted sampling core

Shallow embedding of `src/lib.rs` (mean, variance, std_dev, skew, covariance,
corrcoef, Moment trait) and `src/random.rs` (`choice`).

Floating-point values are idealized as exact real numbers extended with the
IEEE special values NaN, +inf and -inf (`F` below): real arithmetic replaces
rounded arithmetic, while the special-value propagation rules of the source's
operations (division by zero, square root of a negative, NaN contagion) are
kept exactly.  The properties at issue are exact-value properties (sentinel
production, symmetry by construction, choice of denominator), which this
idealization preserves.  Signed zero is not modelled; no property below
depends on the sign of a zero.

Rust panics are embedded as `Except.error` with the panic message.  The
external random source (`WeightedIndex::sample`) is abstracted as an oracle
`d : ℕ → ℕ` giving the sequence of sampled indices; `WeightedIndex` over a
nonempty weight vector only ever yields indices below the weight-vector
length, so oracles are quantified over or instantiated with that range.
-/

/-- An idealized `f64`: an exact real, or one of the special values. -/
inductive F where
  | nan : F
  | inf : F
  | ninf : F
  | val : ℝ → F

namespace F

/-- IEEE addition on idealized floats (reals add exactly). -/
def add : F → F → F
  | nan, _ => nan
  | _, nan => nan
  | inf, ninf => nan
  | ninf, inf => nan
  | inf, _ => inf
  | _, inf => inf
  | ninf, _ => ninf
  | _, ninf => ninf
  | val a, val b => val (a + b)

/-- IEEE negation. -/
def neg : F → F
  | nan => nan
  | inf => ninf
  | ninf => inf
  | val a => val (-a)

/-- IEEE subtraction: `a - b = a + (-b)`. -/
def sub (x y : F) : F := add x (neg y)

/-- IEEE multiplication; `0 * inf = nan`. -/
noncomputable def mul : F → F → F
  | nan, _ => nan
  | _, nan => nan
  | inf, inf => inf
  | inf, ninf => ninf
  | ninf, inf => ninf
  | ninf, ninf => inf
  | inf, val b => if b = 0 then nan else if 0 < b then inf else ninf
  | val a, inf => if a = 0 then nan else if 0 < a then inf else ninf
  | ninf, val b => if b = 0 then nan else if 0 < b then ninf else inf
  | val a, ninf => if a = 0 then nan else if 0 < a then ninf else inf
  | val a, val b => val (a * b)

/-- IEEE division; `0 / 0 = nan`, `a / 0 = ±inf` for `a ≠ 0` (the sign of
the zero divisor is not modelled: the positive-zero convention is used,
and no function below reaches a nonzero-over-zero division). -/
noncomputable def div : F → F → F
  | nan, _ => nan
  | _, nan => nan
  | inf, inf => nan
  | inf, ninf => nan
  | ninf, inf => nan
  | ninf, ninf => nan
  | inf, val b => if 0 ≤ b then inf else ninf
  | ninf, val b => if 0 ≤ b then ninf else inf
  | val _, inf => val 0
  | val _, ninf => val 0
  | val a, val b =>
      if b = 0 then (if a = 0 then nan else if 0 < a then inf else ninf)
      else val (a / b)

/-- IEEE square root: `nan` for negative arguments. -/
noncomputable def sqrt : F → F
  | nan => nan
  | inf => inf
  | ninf => nan
  | val a => if a < 0 then nan else val (Real.sqrt a)

/-- `x.powi(2)` as the source computes it: a square by multiplication. -/
noncomputable def pow2 (x : F) : F := mul x x

/-- `x.powi(3)`: a cube by multiplication. -/
noncomputable def pow3 (x : F) : F := mul (mul x x) x

/-- `.sum::<f64>()`: left fold of IEEE addition starting at `0.0`. -/
def fsum (l : List F) : F := l.foldl add (val 0)

end F

open F

/-- `mean` (src/lib.rs): sum of the slice divided by its length; an empty
slice yields `0.0 / 0.0 = NaN`. -/
noncomputable def mean (nums : List ℝ) : F :=
  F.div (fsum (nums.map F.val)) (F.val nums.length)

/-- `variance` (src/lib.rs): sum of squared deviations over `n - 1`
(the length is at least 1 in the else branch, so the `usize` subtraction
`nums.len() - 1` is the truncated natural subtraction). -/
noncomputable def variance (nums : List ℝ) : F :=
  if nums.length = 0 then F.nan
  else
    F.div (fsum (nums.map fun x => F.pow2 (F.sub (F.val x) (mean nums))))
      (F.val ((nums.length - 1 : ℕ) : ℝ))

/-- `std_dev` (src/lib.rs): square root of `variance`, with an explicit
NaN for the empty slice. -/
noncomputable def std_dev (nums : List ℝ) : F :=
  if nums.length = 0 then F.nan else F.sqrt (variance nums)

/-- `skew` (src/lib.rs): its own internal variance with denominator `n`
(not `n - 1`, and not via the public `variance`). -/
noncomputable def skewVar (nums : List ℝ) : F :=
  F.div (fsum (nums.map fun x => F.pow2 (F.sub (F.val x) (mean nums))))
    (F.val nums.length)

/-- `skew` (src/lib.rs): third standardized moment, standardizing by the
square root of `skewVar` and averaging the cubes over `n`. -/
noncomputable def skew (nums : List ℝ) : F :=
  F.div
    (fsum (nums.map fun x =>
      F.pow3 (F.div (F.sub (F.val x) (mean nums)) (F.sqrt (skewVar nums)))))
    (F.val nums.length)

/-- The 2×2 result matrix of `covariance` and `corrcoef`. -/
structure Mat2 where
  c00 : F
  c01 : F
  c10 : F
  c11 : F

/-- The `cov[0][0]` assignment of `covariance` (src/lib.rs): squared
deviations of `x` over `n - 1.0`, where `n = x.len() as f64` (real
subtraction on the cast length). -/
noncomputable def cov00 (x : List ℝ) : F :=
  F.div (fsum (x.map fun a => F.mul (F.sub (F.val a) (mean x)) (F.sub (F.val a) (mean x))))
    (F.val ((x.length : ℝ) - 1))

/-- The `cov[0][1]` assignment of `covariance` (src/lib.rs): products of
paired deviations (over `x.iter().zip(y.iter())`) over `n - 1.0`. -/
noncomputable def cov01 (x y : List ℝ) : F :=
  F.div
    (fsum ((x.zip y).map fun p =>
      F.mul (F.sub (F.val p.1) (mean x)) (F.sub (F.val p.2) (mean y))))
    (F.val ((x.length : ℝ) - 1))

/-- The `cov[1][1]` assignment of `covariance` (src/lib.rs): squared
deviations of `y` over `n - 1.0` with `n` taken from `x.len()`. -/
noncomputable def cov11 (x y : List ℝ) : F :=
  F.div (fsum (y.map fun b => F.mul (F.sub (F.val b) (mean y)) (F.sub (F.val b) (mean y))))
    (F.val ((x.length : ℝ) - 1))

/-- `covariance` (src/lib.rs): panics when the lengths differ; otherwise a
2×2 matrix of the three entry formulas, with `cov[1][0]` assigned from
`cov[0][1]`. -/
noncomputable def covariance (x y : List ℝ) : Except String Mat2 :=
  if x.length ≠ y.length then Except.error "x and y must have the same length"
  else Except.ok ⟨cov00 x, cov01 x y, cov01 x y, cov11 x y⟩

/-- `corrcoef` (src/lib.rs): panics when the lengths differ; otherwise the
off-diagonal is `covariance(x,y)[0][1] / (std_dev x * std_dev y)` and the
diagonal is the literal `1.0`. -/
noncomputable def corrcoef (x y : List ℝ) : Except String Mat2 :=
  if x.length ≠ y.length then Except.error "x and y must have the same length"
  else
    match covariance x y with
    | Except.error e => Except.error e
    | Except.ok m =>
        let corr := F.div m.c01 (F.mul (std_dev x) (std_dev y))
        Except.ok ⟨F.val 1, corr, corr, F.val 1⟩

/-- `Moment::mean` for slices (src/lib.rs): `None` on the empty slice,
otherwise `Some` of the free function. -/
noncomputable def momentMean (l : List ℝ) : Option F :=
  if l.length = 0 then none else some (mean l)

/-- `Moment::var` for slices (src/lib.rs). -/
noncomputable def momentVar (l : List ℝ) : Option F :=
  if l.length = 0 then none else some (variance l)

/-- `Moment::std` for slices (src/lib.rs). -/
noncomputable def momentStd (l : List ℝ) : Option F :=
  if l.length = 0 then none else some (std_dev l)

/-- `Moment::skew` for slices (src/lib.rs). -/
noncomputable def momentSkew (l : List ℝ) : Option F :=
  if l.length = 0 then none else some (skew l)

/-! ## `choice` (src/random.rs)

`Vec::swap_remove(i)` and the two sampling loops, with the random source
abstracted as an index oracle `d : ℕ → ℕ` (`d k` is the `k`-th value that
`dist.sample(&mut rng)` returns; `WeightedIndex` over the `a.len()` weights
only returns indices below `a.len()`). -/

/-- Rust `Vec::swap_remove i`: overwrite position `i` with the last element
and drop the last position. -/
def swapRemove (l : List ℕ) (i : ℕ) : List ℕ :=
  (l.set i (l.getLastD 0)).dropLast

/-- The `replace = false` loop of `choice`: each draw indexes the shrinking
survivor vector `indices` with the sampled value and `swap_remove`s the hit
position; an out-of-range sampled value is the Rust index-out-of-bounds
panic. -/
def drawLoopNoReplace (a : List ℕ) : ℕ → List ℕ → (ℕ → ℕ) → Except String (List ℕ)
  | 0, _, _ => Except.ok []
  | k + 1, indices, d =>
    match indices.get? (d 0) with
    | none => Except.error "index out of bounds"
    | some idx =>
      match a.get? idx with
      | none => Except.error "index out of bounds"
      | some x =>
        (drawLoopNoReplace a k (swapRemove indices (d 0)) fun n => d (n + 1)).map
          fun r => x :: r

/-- The `replace = true` loop of `choice`: each draw indexes the population
directly with the sampled value. -/
def drawLoopReplace (a : List ℕ) : ℕ → (ℕ → ℕ) → Except String (List ℕ)
  | 0, _ => Except.ok []
  | k + 1, d =>
    match a.get? (d 0) with
    | none => Except.error "index out of bounds"
    | some x => (drawLoopReplace a k fun n => d (n + 1)).map fun r => x :: r

/-- `choice` (src/random.rs): the two precondition panics, then the sampling
loop over the oracle `d`; the distribution construction itself is absorbed
into the oracle.  The population is taken over `ℕ` elements (the element
type is a type parameter in the source and never inspected). -/
def choice (a : List ℕ) (size : ℕ) (replace : Bool) (p : Option (List ℝ))
    (d : ℕ → ℕ) : Except String (List ℕ) :=
  if replace = false ∧ a.length < size then
    Except.error "`size` cannot be greater than the length of `a` if `replace` is false"
  else
    match p with
    | some w =>
      if w.length ≠ a.length then Except.error "`a` must be the same length as `p`"
      else if replace then drawLoopReplace a size d
      else drawLoopNoReplace a size (List.range a.length) d
    | none =>
      if replace then drawLoopReplace a size d
      else drawLoopNoReplace a size (List.range a.length) d

/-! ## Evaluation lemmas for the float model -/

namespace F

theorem add_val (a b : ℝ) : add (val a) (val b) = val (a + b) := rfl

theorem sub_val (a b : ℝ) : sub (val a) (val b) = val (a - b) := by
  simp [sub, add, neg, sub_eq_add_neg]

theorem mul_val (a b : ℝ) : mul (val a) (val b) = val (a * b) := rfl

theorem div_val (a : ℝ) {b : ℝ} (hb : b ≠ 0) : div (val a) (val b) = val (a / b) := by
  simp [div, hb]

theorem div_zero_zero : div (val 0) (val 0) = nan := by simp [div]

theorem sqrt_val {a : ℝ} (ha : 0 ≤ a) : sqrt (val a) = val (Real.sqrt a) := by
  simp [sqrt, not_lt.mpr ha]

theorem pow2_val (a : ℝ) : pow2 (val a) = val (a * a) := rfl

theorem pow3_val (a : ℝ) : pow3 (val a) = val (a * a * a) := rfl

theorem foldl_add_val {α : Type} (g : α → ℝ) (l : List α) (r : ℝ) :
    (l.map fun x => val (g x)).foldl add (val r) = val (r + (l.map g).sum) := by
  induction l generalizing r with
  | nil => simp
  | cons x xs ih => simp [add, ih (r + g x), add_assoc]

theorem fsum_map {α : Type} (g : α → ℝ) (l : List α) :
    fsum (l.map fun x => val (g x)) = val ((l.map g).sum) := by
  simpa using foldl_add_val g l 0

theorem fsum_map_val (l : List ℝ) : fsum (l.map val) = val l.sum := by
  simpa using fsum_map (fun x => x) l

end F

/-! ## The statistics functions on nonempty inputs -/

theorem mean_eq (l : List ℝ) (h : 0 < l.length) :
    mean l = F.val (l.sum / l.length) := by
  have hl : (l.length : ℝ) ≠ 0 := Nat.cast_ne_zero.mpr h.ne'
  rw [mean, F.fsum_map_val, F.div_val _ hl]

theorem variance_eq (l : List ℝ) (h : 2 ≤ l.length) :
    variance l =
      F.val ((l.map fun x => (x - l.sum / l.length) ^ 2).sum / (l.length - 1)) := by
  have h0 : 0 < l.length := lt_of_lt_of_le (by norm_num) h
  have hne : l.length ≠ 0 := h0.ne'
  have hden : ((l.length - 1 : ℕ) : ℝ) ≠ 0 := by
    have : 1 ≤ l.length - 1 := Nat.le_sub_one_of_lt h
    positivity
  rw [variance, if_neg hne, mean_eq l h0]
  have hmap : (l.map fun x => F.pow2 (F.sub (F.val x) (F.val (l.sum / l.length)))) =
      l.map fun x => F.val ((x - l.sum / l.length) ^ 2) := by
    refine List.map_congr_left fun x _ => ?_
    rw [F.sub_val, F.pow2_val, ← sq]
  rw [hmap, F.fsum_map, F.div_val _ hden, Nat.cast_sub h0, Nat.cast_one]

theorem variance_single (x : ℝ) : variance [x] = F.nan := by
  have hm : mean [x] = F.val x := by
    rw [mean_eq [x] (by norm_num)]; norm_num
  rw [variance]
  simp only [List.length_singleton, List.map_cons, List.map_nil, hm]
  rw [F.sub_val, F.pow2_val]
  norm_num [F.fsum, F.add, F.div_zero_zero]

theorem variance_nan_iff (l : List ℝ) : variance l = F.nan ↔ l.length ≤ 1 := by
  constructor
  · intro hv
    by_contra hlen
    have h2 : 2 ≤ l.length := by omega
    rw [variance_eq l h2] at hv
    exact F.noConfusion hv
  · intro hlen
    interval_cases h : l.length
    · rw [variance, if_pos h]
    · obtain ⟨x, rfl⟩ := List.length_eq_one.mp h
      exact variance_single x

theorem variance_val_imp (l : List ℝ) (v : ℝ) (hv : variance l = F.val v) :
    2 ≤ l.length ∧ 0 ≤ v := by
  have h2 : 2 ≤ l.length := by
    by_contra hlen
    have : variance l = F.nan := (variance_nan_iff l).mpr (by omega)
    rw [hv] at this; exact F.noConfusion this
  refine ⟨h2, ?_⟩
  rw [variance_eq l h2] at hv
  have := F.val.inj hv
  rw [← this]
  have hnum : 0 ≤ (l.map fun x => (x - l.sum / l.length) ^ 2).sum :=
    List.sum_nonneg (by intro a ha; simp only [List.mem_map] at ha
                        obtain ⟨x, _, rfl⟩ := ha; positivity)
  have hden : (0 : ℝ) ≤ (l.length : ℝ) - 1 := by
    have : (2 : ℝ) ≤ l.length := by exact_mod_cast h2
    linarith
  positivity

theorem variance_nan_or_val (l : List ℝ) :
    variance l = F.nan ∨ ∃ v : ℝ, variance l = F.val v ∧ 0 ≤ v := by
  rcases le_or_lt l.length 1 with h | h
  · exact Or.inl ((variance_nan_iff l).mpr h)
  · right
    refine ⟨_, variance_eq l h, ?_⟩
    obtain ⟨_, hv⟩ := variance_val_imp l _ (variance_eq l h)
    exact hv

theorem std_dev_of_variance_val (l : List ℝ) (v : ℝ) (hv : variance l = F.val v) :
    std_dev l = F.val (Real.sqrt v) := by
  obtain ⟨h2, h0v⟩ := variance_val_imp l v hv
  have hne : l.length ≠ 0 := by omega
  rw [std_dev, if_neg hne, hv, F.sqrt_val h0v]

theorem std_dev_nan_iff (l : List ℝ) : std_dev l = F.nan ↔ variance l = F.nan := by
  rcases Nat.eq_zero_or_pos l.length with h | h
  · rw [std_dev, if_pos h, variance, if_pos h]
  · rw [std_dev, if_neg h.ne']
    rcases variance_nan_or_val l with hv | ⟨v, hv, h0v⟩
    · rw [hv]; exact ⟨fun _ => rfl, fun _ => rfl⟩
    · rw [hv, F.sqrt_val h0v]
      exact ⟨fun hc => F.noConfusion hc, fun hc => F.noConfusion hc⟩

/-- C4: `variance` computes the sample variance with denominator `n - 1`
(the unbiased estimator: for `n ≥ 2` it is the sum of squared deviations
from the mean divided by `n - 1`, and on `[1,2,3,4,5]` it evaluates to
`5/2`, not the `n`-denominator value `2`), and for a sample of length 0 as
well as of length 1 the result is the NaN sentinel — exactly then — not an
error. -/
theorem variance_unbiased_and_undefined_cases :
    (∀ l : List ℝ, 2 ≤ l.length →
        variance l =
          F.val ((l.map fun x => (x - l.sum / l.length) ^ 2).sum / (l.length - 1))) ∧
    (∀ l : List ℝ, variance l = F.nan ↔ l.length ≤ 1) ∧
    variance [(1 : ℝ), 2, 3, 4, 5] = F.val (5 / 2) ∧
    variance ([] : List ℝ) = F.nan ∧ variance [(42 : ℝ)] = F.nan := by
  refine ⟨variance_eq, variance_nan_iff, ?_, ?_, variance_single 42⟩
  · rw [variance_eq _ (by norm_num)]
    simp only [F.val.injEq]
    norm_num
  · simp [variance]

/-- C5: whenever `variance` yields a real value `v`, `std_dev` yields
`Real.sqrt v` (the value is nonnegative, so the square root introduces no
new NaN), and `std_dev` is NaN exactly when `variance` is NaN. -/
theorem std_dev_sqrt_of_variance :
    (∀ (l : List ℝ) (v : ℝ), variance l = F.val v → std_dev l = F.val (Real.sqrt v)) ∧
    (∀ l : List ℝ, std_dev l = F.nan ↔ variance l = F.nan) := by
  exact ⟨std_dev_of_variance_val, std_dev_nan_iff⟩

theorem skewVar_eq (l : List ℝ) (h : 0 < l.length) :
    skewVar l = F.val ((l.map fun x => (x - l.sum / l.length) ^ 2).sum / l.length) := by
  have hl : (l.length : ℝ) ≠ 0 := Nat.cast_ne_zero.mpr h.ne'
  rw [skewVar, mean_eq l h]
  have hmap : (l.map fun x => F.pow2 (F.sub (F.val x) (F.val (l.sum / l.length)))) =
      l.map fun x => F.val ((x - l.sum / l.length) ^ 2) := by
    refine List.map_congr_left fun x _ => ?_
    rw [F.sub_val, F.pow2_val, ← sq]
  rw [hmap, F.fsum_map, F.div_val _ hl]

theorem skew_eq (l : List ℝ) (h : 0 < l.length)
    (hv : (0 : ℝ) < (l.map fun x => (x - l.sum / l.length) ^ 2).sum / (l.length : ℝ)) :
    skew l = F.val ((l.map fun x =>
        ((x - l.sum / l.length) /
            Real.sqrt ((l.map fun y => (y - l.sum / l.length) ^ 2).sum / (l.length : ℝ))) ^
          3).sum /
      (l.length : ℝ)) := by
  have hl : (l.length : ℝ) ≠ 0 := Nat.cast_ne_zero.mpr h.ne'
  have hs : Real.sqrt ((l.map fun y => (y - l.sum / l.length) ^ 2).sum / l.length) ≠ 0 :=
    (Real.sqrt_pos.mpr hv).ne'
  rw [skew, mean_eq l h, skewVar_eq l h, F.sqrt_val hv.le]
  have hmap : (l.map fun x =>
      F.pow3 (F.div (F.sub (F.val x) (F.val (l.sum / l.length)))
        (F.val (Real.sqrt ((l.map fun y => (y - l.sum / l.length) ^ 2).sum / l.length))))) =
      l.map fun x => F.val (((x - l.sum / l.length) /
        Real.sqrt ((l.map fun y => (y - l.sum / l.length) ^ 2).sum / l.length)) ^ 3) := by
    refine List.map_congr_left fun x _ => ?_
    rw [F.sub_val, F.div_val _ hs, F.pow3_val]
    congr 1
    ring
  rw [hmap, F.fsum_map, F.div_val _ hl]

/-- C6: `skew` standardizes by an internal population variance with
denominator `n` — for every sample of length at least 2 its internal
variance `sv` and the public `variance` value `v` satisfy
`sv * n = v * (n - 1)`, and on `[6,6,6,9]` the internal variance is
`27/16` while `variance` gives `9/4` — and the spec's examples hold:
`skew [6,6,6,9]` is within `0.001` of `1.1547`, and the symmetric sample
`[1,2,3,4,5]` has skewness exactly `0`. -/
theorem skew_population_denominator_and_values :
    (∀ l : List ℝ, 2 ≤ l.length →
        ∃ sv v : ℝ, skewVar l = F.val sv ∧ variance l = F.val v ∧
          sv * (l.length : ℝ) = v * ((l.length : ℝ) - 1)) ∧
    skewVar [(6 : ℝ), 6, 6, 9] = F.val (27 / 16) ∧
    variance [(6 : ℝ), 6, 6, 9] = F.val (9 / 4) ∧
    (∃ s : ℝ, skew [(6 : ℝ), 6, 6, 9] = F.val s ∧ |s - 1.1547| < 1 / 1000) ∧
    skew [(1 : ℝ), 2, 3, 4, 5] = F.val 0 := by
  refine ⟨?_, ?_, ?_, ?_, ?_⟩
  · intro l h2
    have h0 : 0 < l.length := by omega
    refine ⟨_, _, skewVar_eq l h0, variance_eq l h2, ?_⟩
    have hn : (l.length : ℝ) ≠ 0 := Nat.cast_ne_zero.mpr h0.ne'
    have hn1 : (l.length : ℝ) - 1 ≠ 0 := by
      have : (2 : ℝ) ≤ (l.length : ℝ) := by exact_mod_cast h2
      intro hc; linarith
    field_simp
  · rw [skewVar_eq _ (by norm_num)]
    simp only [F.val.injEq]
    norm_num
  · rw [variance_eq _ (by norm_num)]
    simp only [F.val.injEq]
    norm_num
  · have h16 : Real.sqrt 16 = 4 := by
      rw [show (16 : ℝ) = 4 ^ 2 by norm_num, Real.sqrt_sq (by norm_num : (0 : ℝ) ≤ 4)]
    have hT2 : Real.sqrt 27 ^ 2 = 27 := Real.sq_sqrt (by norm_num)
    have hTpos : 0 < Real.sqrt 27 := Real.sqrt_pos.mpr (by norm_num)
    have hTne : Real.sqrt 27 ≠ 0 := hTpos.ne'
    have hval : skew [(6 : ℝ), 6, 6, 9] = F.val (6 / Real.sqrt 27) := by
      rw [skew_eq _ (by norm_num) (by norm_num)]
      congr 1
      norm_num [h16]
      field_simp
      ring_nf
      linear_combination (-6291456 : ℝ) * Real.sqrt 27 ^ 10 * hT2
    refine ⟨6 / Real.sqrt 27, hval, ?_⟩
    have hlb : (5196 : ℝ) / 1000 < Real.sqrt 27 := by nlinarith
    have hub : Real.sqrt 27 < (51962 : ℝ) / 10000 := by nlinarith
    have h1 : 6 / Real.sqrt 27 < 11557 / 10000 := by
      rw [div_lt_iff₀ hTpos]; nlinarith
    have h2 : (11537 : ℝ) / 10000 < 6 / Real.sqrt 27 := by
      rw [lt_div_iff₀ hTpos]; nlinarith
    rw [abs_lt]
    constructor <;> [linarith; linarith]
  · rw [skew_eq _ (by norm_num) (by norm_num)]
    simp only [F.val.injEq]
    have h2 : Real.sqrt 2 ^ 2 = 2 := Real.sq_sqrt (by norm_num)
    have hSpos : 0 < Real.sqrt 2 := Real.sqrt_pos.mpr (by norm_num)
    have hSne : Real.sqrt 2 ≠ 0 := hSpos.ne'
    norm_num
    field_simp
    linear_combination (Real.sqrt 2 ^ 4 + 2 * Real.sqrt 2 ^ 2 + 4) * h2

/-! ## Covariance and correlation -/

theorem covariance_eq_ok (x y : List ℝ) (h : x.length = y.length) :
    covariance x y = Except.ok ⟨cov00 x, cov01 x y, cov01 x y, cov11 x y⟩ := by
  rw [covariance, if_neg (by simp [h])]

theorem corrcoef_eq_ok (x y : List ℝ) (h : x.length = y.length) :
    corrcoef x y = Except.ok
      ⟨F.val 1, F.div (cov01 x y) (F.mul (std_dev x) (std_dev y)),
        F.div (cov01 x y) (F.mul (std_dev x) (std_dev y)), F.val 1⟩ := by
  rw [corrcoef, if_neg (by simp [h]), covariance_eq_ok x y h]

theorem cov00_eq_variance (x : List ℝ) (h : 1 ≤ x.length) :
    cov00 x = variance x := by
  rw [cov00, variance, if_neg (by omega), Nat.cast_sub h, Nat.cast_one]
  rfl

/-- C7: `covariance` is symmetric by construction — whatever it returns has
equal off-diagonal entries — and on a pair `(x, x)` with at least two
elements the `[0][0]` entry is exactly the value of `variance x`. -/
theorem covariance_symmetric_and_diag_variance :
    (∀ (x y : List ℝ) (m : Mat2), covariance x y = Except.ok m → m.c01 = m.c10) ∧
    (∀ (x : List ℝ) (m : Mat2), 2 ≤ x.length → covariance x x = Except.ok m →
      m.c00 = variance x) := by
  constructor
  · intro x y m hm
    by_cases h : x.length = y.length
    · rw [covariance_eq_ok x y h] at hm
      cases hm
      rfl
    · rw [covariance, if_pos h] at hm
      exact Except.noConfusion hm
  · intro x m h2 hm
    rw [covariance_eq_ok x x rfl] at hm
    cases hm
    exact cov00_eq_variance x (by omega)

/-- C9: both `covariance` and `corrcoef` report the length-mismatch error
(the source's panic) whenever the input lengths differ, before any entry is
computed. -/
theorem covariance_corrcoef_length_mismatch (x y : List ℝ)
    (h : x.length ≠ y.length) :
    covariance x y = Except.error "x and y must have the same length" ∧
    corrcoef x y = Except.error "x and y must have the same length" :=
  ⟨by rw [covariance, if_pos h], by rw [corrcoef, if_pos h]⟩

/-- Witness for C9 at `x = [1,2,3]`, `y = [2,4]`. -/
theorem covariance_corrcoef_length_mismatch_witness :
    covariance [(1 : ℝ), 2, 3] [(2 : ℝ), 4] =
      Except.error "x and y must have the same length" ∧
    corrcoef [(1 : ℝ), 2, 3] [(2 : ℝ), 4] =
      Except.error "x and y must have the same length" :=
  covariance_corrcoef_length_mismatch [(1 : ℝ), 2, 3] [(2 : ℝ), 4] (by norm_num)

theorem sum_centered_sq_zero (c : ℝ) (l : List ℝ)
    (h : (l.map fun t => (t - c) ^ 2).sum = 0) : ∀ a ∈ l, a = c := by
  induction l with
  | nil => intro a ha; exact absurd ha (List.not_mem_nil a)
  | cons x xs ih =>
    simp only [List.map_cons, List.sum_cons] at h
    have hrest : 0 ≤ (xs.map fun t => (t - c) ^ 2).sum :=
      List.sum_nonneg (by
        intro b hb
        simp only [List.mem_map] at hb
        obtain ⟨t, _, rfl⟩ := hb
        positivity)
    have hx : (x - c) ^ 2 = 0 := by nlinarith [sq_nonneg (x - c)]
    have hxs : (xs.map fun t => (t - c) ^ 2).sum = 0 := by nlinarith [sq_nonneg (x - c)]
    intro a ha
    rcases List.mem_cons.mp ha with rfl | hmem
    · have := (pow_eq_zero_iff two_ne_zero).mp hx
      linarith
    · exact ih hxs a hmem

theorem variance_zero_all_eq_mean (x : List ℝ) (h : variance x = F.val 0) :
    2 ≤ x.length ∧ ∀ a ∈ x, a = x.sum / x.length := by
  have h2 := (variance_val_imp x 0 h).1
  rw [variance_eq x h2] at h
  have heq := F.val.inj h
  have hden : (0 : ℝ) < (x.length : ℝ) - 1 := by
    have : (2 : ℝ) ≤ (x.length : ℝ) := by exact_mod_cast h2
    linarith
  have hsum : (x.map fun t => (t - x.sum / x.length) ^ 2).sum = 0 := by
    rcases div_eq_zero_iff.mp heq with hs | hd
    · exact hs
    · exact absurd hd hden.ne'
  exact ⟨h2, sum_centered_sq_zero _ x hsum⟩

theorem cov01_zero_left (x y : List ℝ) (h2 : 2 ≤ x.length)
    (hx : ∀ a ∈ x, a = x.sum / x.length) (hy : 0 < y.length) :
    cov01 x y = F.val 0 := by
  have h0x : 0 < x.length := by omega
  rw [cov01, mean_eq x h0x, mean_eq y hy]
  have hmap : ((x.zip y).map fun p =>
      F.mul (F.sub (F.val p.1) (F.val (x.sum / x.length)))
        (F.sub (F.val p.2) (F.val (y.sum / y.length)))) =
      (x.zip y).map fun p =>
        F.val ((p.1 - x.sum / x.length) * (p.2 - y.sum / y.length)) := by
    refine List.map_congr_left fun p _ => ?_
    rw [F.sub_val, F.sub_val, F.mul_val]
  have hzero : (((x.zip y).map fun p =>
      (p.1 - x.sum / x.length) * (p.2 - y.sum / y.length)).sum) = 0 := by
    refine List.sum_eq_zero ?_
    intro r hr
    simp only [List.mem_map] at hr
    obtain ⟨p, hp, rfl⟩ := hr
    have hpx := hx p.1 (List.of_mem_zip hp).1
    have h0 : p.1 - x.sum / x.length = 0 := by rw [hpx]; ring
    rw [h0, zero_mul]
  have hden : ((x.length : ℝ) - 1) ≠ 0 := by
    have : (2 : ℝ) ≤ (x.length : ℝ) := by exact_mod_cast h2
    intro hc; linarith
  rw [hmap, F.fsum_map, hzero, F.div_val _ hden, zero_div]

theorem cov01_zero_right (x y : List ℝ) (h2 : 2 ≤ x.length)
    (hy : ∀ b ∈ y, b = y.sum / y.length) (h0y : 0 < y.length) :
    cov01 x y = F.val 0 := by
  have h0x : 0 < x.length := by omega
  rw [cov01, mean_eq x h0x, mean_eq y h0y]
  have hmap : ((x.zip y).map fun p =>
      F.mul (F.sub (F.val p.1) (F.val (x.sum / x.length)))
        (F.sub (F.val p.2) (F.val (y.sum / y.length)))) =
      (x.zip y).map fun p =>
        F.val ((p.1 - x.sum / x.length) * (p.2 - y.sum / y.length)) := by
    refine List.map_congr_left fun p _ => ?_
    rw [F.sub_val, F.sub_val, F.mul_val]
  have hzero : (((x.zip y).map fun p =>
      (p.1 - x.sum / x.length) * (p.2 - y.sum / y.length)).sum) = 0 := by
    refine List.sum_eq_zero ?_
    intro r hr
    simp only [List.mem_map] at hr
    obtain ⟨p, hp, rfl⟩ := hr
    have hpy := hy p.2 (List.of_mem_zip hp).2
    have h0 : p.2 - y.sum / y.length = 0 := by rw [hpy]; ring
    rw [h0, mul_zero]
  have hden : ((x.length : ℝ) - 1) ≠ 0 := by
    have : (2 : ℝ) ≤ (x.length : ℝ) := by exact_mod_cast h2
    intro hc; linarith
  rw [hmap, F.fsum_map, hzero, F.div_val _ hden, zero_div]

theorem corrcoef_offdiag_nan_of_zero_variance (x y : List ℝ)
    (hlen : x.length = y.length)
    (hvar : variance x = F.val 0 ∨ variance y = F.val 0) :
    ∃ m : Mat2, corrcoef x y = Except.ok m ∧ m.c01 = F.nan ∧ m.c10 = F.nan := by
  have hcorr : F.div (cov01 x y) (F.mul (std_dev x) (std_dev y)) = F.nan := by
    rcases hvar with hv | hv
    · obtain ⟨h2, hx⟩ := variance_zero_all_eq_mean x hv
      have h0y : 0 < y.length := by omega
      have hc01 := cov01_zero_left x y h2 hx h0y
      have hsx : std_dev x = F.val 0 := by
        have := std_dev_of_variance_val x 0 hv
        rwa [Real.sqrt_zero] at this
      have hysome : ¬variance y = F.nan := by rw [variance_nan_iff]; omega
      rcases variance_nan_or_val y with hny | ⟨vy, hvy, _⟩
      · exact absurd hny hysome
      · have hsy := std_dev_of_variance_val y vy hvy
        rw [hc01, hsx, hsy, F.mul_val, zero_mul, F.div_zero_zero]
    · obtain ⟨h2y, hy⟩ := variance_zero_all_eq_mean y hv
      have h2 : 2 ≤ x.length := by omega
      have hc01 := cov01_zero_right x y h2 hy (by omega)
      have hsy : std_dev y = F.val 0 := by
        have := std_dev_of_variance_val y 0 hv
        rwa [Real.sqrt_zero] at this
      have hxsome : ¬variance x = F.nan := by rw [variance_nan_iff]; omega
      rcases variance_nan_or_val x with hnx | ⟨vx, hvx, _⟩
      · exact absurd hnx hxsome
      · have hsx := std_dev_of_variance_val x vx hvx
        rw [hc01, hsx, hsy, F.mul_val, mul_zero, F.div_zero_zero]
  exact ⟨_, corrcoef_eq_ok x y hlen, hcorr, hcorr⟩

/-- C8: whatever `corrcoef` returns has both diagonal entries fixed at the
literal `1.0`, off-diagonal entries equal to `covariance(x,y)[0][1]`
divided by `std_dev x * std_dev y`, and when either input has zero
variance (and the lengths match) the off-diagonal entries are the NaN
sentinel, not an error. -/
theorem corrcoef_diag_one_offdiag_nan :
    (∀ (x y : List ℝ) (m : Mat2), corrcoef x y = Except.ok m →
        m.c00 = F.val 1 ∧ m.c11 = F.val 1 ∧
        ∀ mc : Mat2, covariance x y = Except.ok mc →
          m.c01 = F.div mc.c01 (F.mul (std_dev x) (std_dev y)) ∧ m.c10 = m.c01) ∧
    (∀ x y : List ℝ, x.length = y.length →
        variance x = F.val 0 ∨ variance y = F.val 0 →
        ∃ m : Mat2, corrcoef x y = Except.ok m ∧ m.c01 = F.nan ∧ m.c10 = F.nan) := by
  constructor
  · intro x y m hm
    by_cases h : x.length = y.length
    · rw [corrcoef_eq_ok x y h] at hm
      cases hm
      refine ⟨rfl, rfl, ?_⟩
      intro mc hmc
      rw [covariance_eq_ok x y h] at hmc
      cases hmc
      exact ⟨rfl, rfl⟩
    · rw [corrcoef, if_pos h] at hm
      exact Except.noConfusion hm
  · exact corrcoef_offdiag_nan_of_zero_variance

/-- The repository's own zero-variance test case, concretely: correlating
`[1,2,3]` with the constant `[5,5,5]` yields NaN off-diagonals. -/
theorem corrcoef_zero_variance_example :
    ∃ m : Mat2, corrcoef [(1 : ℝ), 2, 3] [(5 : ℝ), 5, 5] = Except.ok m ∧
      m.c01 = F.nan ∧ m.c10 = F.nan := by
  apply corrcoef_offdiag_nan_of_zero_variance _ _ (by norm_num)
  right
  rw [variance_eq _ (by norm_num)]
  simp only [F.val.injEq]
  norm_num

/-- C10: the slice implementation of the `Moment` trait returns `None` from
all four methods exactly on the empty slice, and on every nonempty slice
returns `Some` of the corresponding free function's value — so the NaN a
one-element slice produces for variance or standard deviation is delivered
inside `Some`, not mapped to `None`. -/
theorem moment_none_iff_empty :
    (∀ l : List ℝ, (momentMean l = none ↔ l = []) ∧ (momentVar l = none ↔ l = []) ∧
        (momentStd l = none ↔ l = []) ∧ (momentSkew l = none ↔ l = [])) ∧
    (∀ l : List ℝ, l ≠ [] →
        momentMean l = some (mean l) ∧ momentVar l = some (variance l) ∧
        momentStd l = some (std_dev l) ∧ momentSkew l = some (skew l)) ∧
    momentVar [(42 : ℝ)] = some F.nan ∧ momentStd [(42 : ℝ)] = some F.nan := by
  refine ⟨?_, ?_, ?_, ?_⟩
  · intro l
    by_cases h0 : l.length = 0
    · have hnil : l = [] := List.length_eq_zero.mp h0
      subst hnil
      simp [momentMean, momentVar, momentStd, momentSkew]
    · have hne : ¬l = [] := fun hc => h0 (by rw [hc]; rfl)
      simp [momentMean, momentVar, momentStd, momentSkew, h0, hne]
  · intro l hl
    have h0 : l.length ≠ 0 := fun hc => hl (List.length_eq_zero.mp hc)
    simp [momentMean, momentVar, momentStd, momentSkew, h0]
  · simp [momentVar, variance_single]
  · have hstd : std_dev [(42 : ℝ)] = F.nan := by
      rw [std_dev, if_neg (by norm_num), variance_single]
      rfl
    simp [momentStd, hstd]

/-! ## The `choice` claims -/

theorem drawLoopReplace_ok (a : List ℕ) :
    ∀ (size : ℕ) (d : ℕ → ℕ), (∀ n, d n < a.length) →
      ∃ r, drawLoopReplace a size d = Except.ok r ∧ r.length = size := by
  intro size
  induction size with
  | zero => exact fun d _ => ⟨[], rfl, rfl⟩
  | succ k ih =>
    intro d hd
    have h0 : d 0 < a.length := hd 0
    have hget : a.get? (d 0) = some (a.get ⟨d 0, h0⟩) := List.get?_eq_get h0
    obtain ⟨r, hr, hlen⟩ := ih (fun n => d (n + 1)) (fun n => hd (n + 1))
    refine ⟨a.get ⟨d 0, h0⟩ :: r, ?_, by simp [hlen]⟩
    rw [drawLoopReplace, hget, hr]
    rfl

theorem drawLoopNoReplace_ok_mem (a : List ℕ) :
    ∀ (k : ℕ) (indices : List ℕ) (d : ℕ → ℕ) (r : List ℕ),
      drawLoopNoReplace a k indices d = Except.ok r →
      r.length = k ∧ ∀ x ∈ r, x ∈ a := by
  intro k
  induction k with
  | zero =>
    intro indices d r h
    cases h
    exact ⟨rfl, by simp⟩
  | succ n ih =>
    intro indices d r h
    rw [drawLoopNoReplace] at h
    split at h
    · exact Except.noConfusion h
    next idx hi =>
      split at h
      · exact Except.noConfusion h
      next x ha =>
        rcases hrec : drawLoopNoReplace a n (swapRemove indices (d 0)) (fun m => d (m + 1))
          with e | r'
        · rw [hrec] at h
          exact Except.noConfusion h
        · rw [hrec] at h
          have hr : r = x :: r' := (Except.ok.inj h).symm
          subst hr
          obtain ⟨hlen, hmem⟩ := ih _ _ _ hrec
          refine ⟨by simp [hlen], ?_⟩
          intro z hz
          rcases List.mem_cons.mp hz with rfl | hz'
          · exact List.get?_mem ha
          · exact hmem z hz'

/-- C1: the without-replacement draw never renormalizes.  With population
`[5, 7]`, two draws and uniform weights, the oracle reporting index 1 on
every sample is a legal output of the once-built distribution (`1 < 2`,
and that distribution is never mutated); because the source keeps sampling
the original index range while shrinking the survivor vector, the second
draw indexes out of bounds and panics, instead of drawing index 0 — the
only survivor, which a renormalized distribution would give probability
1. -/
theorem choice_never_renormalizes_panic :
    choice [5, 7] 2 false none (fun _ => 1) = Except.error "index out of bounds" ∧
    (∀ n : ℕ, (fun _ : ℕ => 1) n < ([5, 7] : List ℕ).length) :=
  ⟨rfl, fun _ => by norm_num⟩

/-- C2: a draw sequence the unmodified uniform distribution emits with
positive probability makes `choice` panic even though `k = 2 ≤ 2 = len`,
so without replacement `choice` does not always return `k` elements. -/
theorem choice_without_replacement_panics_in_bounds :
    2 ≤ ([1, 2] : List ℕ).length ∧
    (∀ n : ℕ, (fun _ : ℕ => 1) n < ([1, 2] : List ℕ).length) ∧
    choice [1, 2] 2 false none (fun _ => 1) = Except.error "index out of bounds" :=
  ⟨by norm_num, fun _ => by norm_num, rfl⟩

/-- C3: the two precondition guards do fail first with their messages, and
the with-replacement path always succeeds with the requested length — but
in the remaining without-replacement case `choice` can still fail after
drawing has begun (an out-of-bounds panic mid-loop), so it is not true
that every non-guarded call succeeds. -/
theorem choice_guard_errors_and_midloop_panic :
    choice [1, 2, 3] 4 false none (fun _ => 0) =
      Except.error "`size` cannot be greater than the length of `a` if `replace` is false" ∧
    choice [1, 2, 3] 2 true (some [(1 : ℝ) / 2, 1 / 2]) (fun _ => 0) =
      Except.error "`a` must be the same length as `p`" ∧
    choice [1, 2, 3] 2 false none (fun _ => 2) = Except.error "index out of bounds" ∧
    (∀ (size : ℕ) (d : ℕ → ℕ), (∀ n, d n < 3) →
      ∃ r, choice [1, 2, 3] size true none d = Except.ok r ∧ r.length = size) := by
  refine ⟨rfl, rfl, rfl, ?_⟩
  intro size d hd
  obtain ⟨r, hr, hlen⟩ := drawLoopReplace_ok [1, 2, 3] size d (by simpa using hd)
  exact ⟨r, by simp [choice, hr], hlen⟩
